import Mathlib

set_option maxHeartbeats 1000000
set_option maxRecDepth 100000

/-!
Shallow embedding of the kraken simulation scripts
`tools/bin/simulation/procedural_generated_graph.py` and
`tools/bin/simulation/random_regular_graph.py`.

Both scripts share a `Peer` class, its `fetch_step` / `fetch_cleanup`
methods and the round loop of `PeerManager.start`; they differ only in
how `PeerManager.__init__` builds the topology (greedy bounded-random
construction vs. a random regular graph produced by the external
`networkx` library).  Peers are identified by their index in the
manager's peer list and neighbor sets hold indices.  Python's ambient
randomness is made explicit: shuffles become caller-supplied oracle
functions and `random.choice` becomes a numeric pick reduced modulo the
candidate-list length, so every theorem quantifies over all possible
random outcomes.  The `PIECE_TRANSMIT_LIMIT` constant is the parameter
`L` below; the round cap (1000 in the source) is the parameter `cap`.
-/

/-- The `Peer` class state.  `pieces` entries are booleans standing for the
0/1 integers of the source; `neighbors` holds peer indices. -/
structure Peer where
  name : Nat
  failed_connection_attempts : Nat
  neighbors : Finset Nat
  pieces : List Bool
  completed : Nat
  time : Nat
  uploaded_current_turn : Nat
  downloaded_current_turn : Nat
deriving DecidableEq

/-- `Peer.__init__`: empty ownership vector, zero counters. -/
def Peer.init (n piece_count : Nat) : Peer :=
  { name := n
    failed_connection_attempts := 0
    neighbors := ∅
    pieces := List.replicate piece_count false
    completed := 0
    time := 0
    uploaded_current_turn := 0
    downloaded_current_turn := 0 }

/-- `Peer.done`: `self.completed == len(self.pieces)`. -/
def Peer.isDone (p : Peer) : Bool := p.completed == p.pieces.length

/-- The candidates contributed by one neighbor `n` in `fetch_step`:
the inner piece loop with its (repeated) uploader-quota test and the
`n.pieces[i] == 1 and self.pieces[i] == 0` condition. -/
def candidates_from (L : Nat) (S : List Peer) (p : Peer) (n : Nat) : List (Nat × Nat) :=
  match S[n]? with
  | none => []
  | some q =>
    if L ≤ q.uploaded_current_turn then []
    else
      (List.range p.pieces.length).filterMap (fun i =>
        if L ≤ q.uploaded_current_turn then none
        else if q.pieces.getD i false = true ∧ p.pieces.getD i false = false then
          some (n, i)
        else none)

/-- The full candidate list of `fetch_step`: the loop over `self.neighbors`.
Python iterates a hash set in unspecified order; here the neighbor indices
are visited in ascending order (the `random.choice` pick below already
ranges over every element, so no behavior is lost; a neighbor index outside
the peer list — impossible in any built graph — contributes nothing either
way since its lookup fails). -/
def candidates (L : Nat) (S : List Peer) (p : Peer) : List (Nat × Nat) :=
  ((List.range S.length).filter (fun n => n ∈ p.neighbors)).foldr
    (fun n acc => candidates_from L S p n ++ acc) []

/-- The downloader-side mutation of `fetch_step` once a candidate `c` has been
chosen: flip the piece, bump `completed` and `downloaded_current_turn`, and —
exactly as the source does — record the finish `time` when the new `completed`
equals `len(pieces) - 1`. -/
def download_update (t : Nat) (p : Peer) (c : Nat × Nat) : Peer :=
  let p1 : Peer :=
    { p with pieces := p.pieces.set c.2 true
             completed := p.completed + 1
             downloaded_current_turn := p.downloaded_current_turn + 1 }
  if p1.completed = p1.pieces.length - 1 then { p1 with time := t } else p1

/-- The uploader-side mutation of `fetch_step`: `c[0].uploaded_current_turn += 1`. -/
def upload_update (q : Peer) : Peer :=
  { q with uploaded_current_turn := q.uploaded_current_turn + 1 }

/-- `Peer.fetch_step(time)` for the peer at index `pid`, with `k` standing for
the outcome of `random.choice(candidates)` (reduced modulo the list length). -/
def fetch_step (L t : Nat) (S : List Peer) (pid k : Nat) : List Peer :=
  match S[pid]? with
  | none => S
  | some p =>
    if p.completed = p.pieces.length then S
    else if L ≤ p.downloaded_current_turn then S
    else
      match candidates L S p with
      | [] => S
      | c0 :: rest =>
        let c := (c0 :: rest).getD (k % (c0 :: rest).length) c0
        let S1 := S.set pid (download_update t p c)
        match S1[c.1]? with
        | none => S1
        | some q => S1.set c.1 (upload_update q)

/-- `Peer.fetch_cleanup`. -/
def fetch_cleanup (p : Peer) : Peer :=
  { p with uploaded_current_turn := 0, downloaded_current_turn := 0 }

/-- The round-end loop `for p in self.peers: p.fetch_cleanup()`. -/
def cleanup_all (S : List Peer) : List Peer := S.map fetch_cleanup

/-- `Peer.connect` on list indices: add each endpoint to the other's
neighbor set (both lookups happen before any mutation, as in Python where
an out-of-range index faults before `connect` runs). -/
def connect (S : List Peer) (a b : Nat) : List Peer :=
  match S[a]?, S[b]? with
  | some pa, some _ =>
    let S1 := S.set a { pa with neighbors := insert b pa.neighbors }
    match S1[b]? with
    | none => S1
    | some pb => S1.set b { pb with neighbors := insert a pb.neighbors }
  | _, _ => S

/-- The candidate loop of `PeerManager.__init__` in
`procedural_generated_graph.py` for a freshly created peer `p` of index `n`:
walk the (shuffled) list of existing peers, connecting while the candidate's
degree is below `maxL`, stopping once `p` reaches `softL` neighbors or its
`failed_connection_attempts` exceed `budget`. -/
def connect_loop (softL maxL budget n : Nat) :
    List Nat → List Peer → Peer → List Peer × Peer
  | [], S, p => (S, p)
  | c :: rest, S, p =>
    match S[c]? with
    | none => connect_loop softL maxL budget n rest S p
    | some q =>
      if q.neighbors.card < maxL then
        let S1 := S.set c { q with neighbors := insert n q.neighbors }
        let p1 := { p with neighbors := insert c p.neighbors }
        if softL ≤ p1.neighbors.card then (S1, p1)
        else connect_loop softL maxL budget n rest S1 p1
      else
        let p1 := { p with failed_connection_attempts := p.failed_connection_attempts + 1 }
        if budget < p1.failed_connection_attempts then (S, p1)
        else connect_loop softL maxL budget n rest S p1

/-- `self.peers[0].pieces = [1]*PIECE_COUNT; self.peers[0].completed = len(...)`. -/
def set_seed (S : List Peer) (i : Nat) : List Peer :=
  match S[i]? with
  | none => S
  | some p =>
    S.set i { p with pieces := List.replicate p.pieces.length true
                     completed := p.pieces.length }

/-- One iteration of the peer-creation loop of Strategy A's
`PeerManager.__init__`: create peer `n` and, for `n > 0`, run the candidate
loop over `orders n` (the shuffled list of existing peer indices). -/
def buildA_step (softL maxL budget piece_count : Nat) (orders : Nat → List Nat)
    (S : List Peer) (n : Nat) : List Peer :=
  let p := Peer.init n piece_count
  if n = 0 then S ++ [p]
  else
    let r := connect_loop softL maxL budget n (orders n) S p
    r.1 ++ [r.2]

/-- Strategy A (`procedural_generated_graph.py` `PeerManager.__init__`):
peers created in index order, greedy bounded-random connection, then peer 0
is made the seeder.  The source's cosmetic `self.peers.sort()` (Python 2
default object ordering, an arbitrary permutation) is taken as the identity
permutation. -/
def buildA (peer_count piece_count softL maxL budget : Nat)
    (orders : Nat → List Nat) : List Peer :=
  set_seed
    ((List.range peer_count).foldl (buildA_step softL maxL budget piece_count orders) []) 0

/-- Strategy B (`random_regular_graph.py` `PeerManager.__init__`): create one
peer per node of the generated graph, connect every edge, seed peer 0.  The
edge list produced by `networkx.random_regular_graph` is a parameter. -/
def buildB (peer_count piece_count : Nat) (edges : List (Nat × Nat)) : List Peer :=
  set_seed
    (edges.foldl (fun S e => connect S e.1 e.2)
      ((List.range peer_count).map (fun n => Peer.init n piece_count))) 0

/-- The plan construction of `PeerManager.start`: every incomplete peer is
enqueued `L` times, in peer order (before the shuffle). -/
def make_plan (L : Nat) (S : List Peer) : List Nat :=
  (List.range S.length).foldr (fun i acc =>
    match S[i]? with
    | none => acc
    | some p =>
      if p.completed = p.pieces.length then acc else List.replicate L i ++ acc) []

/-- Processing of the (shuffled) plan: each item carries the peer index and
the `random.choice` outcome for that `fetch_step` call. -/
def process_plan (L t : Nat) (S : List Peer) (items : List (Nat × Nat)) : List Peer :=
  items.foldl (fun T it => fetch_step L t T it.1 it.2) S

/-- The convergence test at the end of each round of `PeerManager.start`. -/
def all_done (S : List Peer) : Bool := S.all (fun p => p.completed == p.pieces.length)

/-- The `while True` loop of `PeerManager.start`, with explicit fuel (the
loop body runs at most `cap + 1` times because of the `time > cap` break).
`sched t plan` is the shuffled plan of round `t`, paired with the
`random.choice` outcomes.  Returns the final `time`, the final peer state
and whether the loop exited through the all-done test. -/
def start_aux (L cap : Nat) (sched : Nat → List Nat → List (Nat × Nat)) :
    Nat → Nat → List Peer → Nat × List Peer × Bool
  | 0, t, S => (t, S, all_done S)
  | fuel + 1, t, S =>
    let t1 := t + 1
    let S1 := process_plan L t1 S (sched t1 (make_plan L S))
    let S2 := cleanup_all S1
    if all_done S2 then (t1, S2, true)
    else if cap < t1 then (t1, S2, false)
    else start_aux L cap sched fuel t1 S2

/-- `PeerManager.start`: time starts at 0 and is incremented at the top of
every loop iteration; the source's cap is 1000. -/
def start (L cap : Nat) (sched : Nat → List Nat → List (Nat × Nat)) (S : List Peer) :
    Nat × List Peer × Bool :=
  start_aux L cap sched (cap + 1) 0 S

/-- A degenerate schedule oracle: process the plan in its given order, always
picking candidate 0 (used only to instantiate theorems at concrete runs). -/
def id_sched : Nat → List Nat → List (Nat × Nat) :=
  fun _ plan => plan.map (fun i => (i, 0))

/-- The error the spec assigns to impossible Strategy B configurations. -/
inductive ConfigurationError where
  | oddStubTotal : ConfigurationError
  | degreeNotLessThanPeerCount : ConfigurationError
  | nonPositiveParameter : ConfigurationError
deriving DecidableEq

/-- Modelled from the spec: the build-time validation of Strategy B lives in
the external `networkx.random_regular_graph` generator, which is not part of
this repository's sources.  Per the spec, a `ConfigurationError` is "raised
at build time when Strategy B's `degree * peerCount` is odd, or
`degree >= peerCount`, or any strategy parameter is non-positive". -/
def validate_strategyB (degree peer_count : Nat) : Except ConfigurationError Unit :=
  if (degree * peer_count) % 2 = 1 then .error .oddStubTotal
  else if peer_count ≤ degree then .error .degreeNotLessThanPeerCount
  else if degree = 0 ∨ peer_count = 0 then .error .nonPositiveParameter
  else .ok ()

/-- Strategy B's build guarded by the spec-modelled validation: on a rejected
configuration no graph is built. -/
def buildB_validated (degree peer_count piece_count : Nat) (edges : List (Nat × Nat)) :
    Except ConfigurationError (List Peer) :=
  match validate_strategyB degree peer_count with
  | .error e => .error e
  | .ok _ => .ok (buildB peer_count piece_count edges)

/-! ## Observation predicates -/

/-- The neighbor set of the peer at index `a` (empty when out of range). -/
def nbrs (S : List Peer) (a : Nat) : Finset Nat := (S[a]?).elim ∅ Peer.neighbors

/-- The symmetric-adjacency invariant. -/
def SymmNbrs (S : List Peer) : Prop := ∀ a b, b ∈ nbrs S a ↔ a ∈ nbrs S b

/-- No self-loops. -/
def IrreflNbrs (S : List Peer) : Prop := ∀ a, a ∉ nbrs S a

/-- Every stored neighbor is a valid peer index. -/
def BoundedNbrs (S : List Peer) : Prop := ∀ a b, b ∈ nbrs S a → b < S.length

/-- The per-round quota bound of the spec. -/
def QuotaOK (L : Nat) (S : List Peer) : Prop :=
  ∀ p ∈ S, p.uploaded_current_turn ≤ L ∧ p.downloaded_current_turn ≤ L

/-- `completedCount` equals the population count of the ownership vector. -/
def CountOK (S : List Peer) : Prop := ∀ p ∈ S, p.completed = p.pieces.count true

/-- Total pieces uploaded this round over the whole swarm. -/
def sum_uploaded (S : List Peer) : Nat := (S.map Peer.uploaded_current_turn).sum

/-- Total pieces downloaded this round over the whole swarm. -/
def sum_downloaded (S : List Peer) : Nat := (S.map Peer.downloaded_current_turn).sum

/-- The peer at index `a` owns no piece and has `completed = 0`
(vacuously true out of range). -/
def blank_at (S : List Peer) (a : Nat) : Bool :=
  match S[a]? with
  | none => true
  | some p => p.completed == 0 && p.pieces.count true == 0

/-- `A` is closed under the neighbor relation of `S`. -/
def closed_under_nbrs (S : List Peer) (A : Finset Nat) : Prop :=
  ∀ a ∈ A, nbrs S a ⊆ A

instance decQuotaOK (L : Nat) (S : List Peer) : Decidable (QuotaOK L S) :=
  inferInstanceAs (Decidable (∀ p ∈ S,
    p.uploaded_current_turn ≤ L ∧ p.downloaded_current_turn ≤ L))

instance decCountOK (S : List Peer) : Decidable (CountOK S) :=
  inferInstanceAs (Decidable (∀ p ∈ S, p.completed = p.pieces.count true))

instance decClosed (S : List Peer) (A : Finset Nat) : Decidable (closed_under_nbrs S A) :=
  inferInstanceAs (Decidable (∀ a ∈ A, nbrs S a ⊆ A))

/-- The peer at index `a` exists and its ownership vector has length `l`. -/
def pieces_len_at (S : List Peer) (a l : Nat) : Bool :=
  match S[a]? with
  | none => false
  | some p => p.pieces.length == l

/-- The running invariant of the unreachable-component scenario: the
component `A` is closed under the neighbor relation, every peer in it is
blank, and the designated witness peer `a0` still has an `l`-piece vector. -/
def UnreachableInv (A : Finset Nat) (a0 l : Nat) (S : List Peer) : Prop :=
  closed_under_nbrs S A ∧ (∀ a ∈ A, blank_at S a = true) ∧ pieces_len_at S a0 l = true

instance decUnreach (A : Finset Nat) (a0 l : Nat) (S : List Peer) :
    Decidable (UnreachableInv A a0 l S) :=
  inferInstanceAs (Decidable (closed_under_nbrs S A ∧
    (∀ a ∈ A, blank_at S a = true) ∧ pieces_len_at S a0 l = true))

/-! ## Basic lemmas -/

theorem getElem?_some_lt {S : List Peer} {i : Nat} {p : Peer} (h : S[i]? = some p) :
    i < S.length := by
  by_contra hn
  rw [List.getElem?_eq_none (Nat.le_of_not_lt hn)] at h
  exact Option.noConfusion h

theorem mem_of_getElem?_some {S : List Peer} {i : Nat} {p : Peer} (h : S[i]? = some p) :
    p ∈ S :=
  List.getElem?_mem h

theorem getD_mod_mem {α : Type} (l : List α) (k : Nat) (d : α) (h : 0 < l.length) :
    l.getD (k % l.length) d ∈ l := by
  rw [List.getD_eq_getElem l d (Nat.mod_lt _ h)]
  exact List.getElem_mem _

@[simp] theorem download_update_pieces (t : Nat) (p : Peer) (c : Nat × Nat) :
    (download_update t p c).pieces = p.pieces.set c.2 true := by
  simp only [download_update]
  split <;> rfl

@[simp] theorem download_update_completed (t : Nat) (p : Peer) (c : Nat × Nat) :
    (download_update t p c).completed = p.completed + 1 := by
  simp only [download_update]
  split <;> rfl

@[simp] theorem download_update_down (t : Nat) (p : Peer) (c : Nat × Nat) :
    (download_update t p c).downloaded_current_turn = p.downloaded_current_turn + 1 := by
  simp only [download_update]
  split <;> rfl

@[simp] theorem download_update_up (t : Nat) (p : Peer) (c : Nat × Nat) :
    (download_update t p c).uploaded_current_turn = p.uploaded_current_turn := by
  simp only [download_update]
  split <;> rfl

@[simp] theorem download_update_neighbors (t : Nat) (p : Peer) (c : Nat × Nat) :
    (download_update t p c).neighbors = p.neighbors := by
  simp only [download_update]
  split <;> rfl

@[simp] theorem upload_update_pieces (q : Peer) : (upload_update q).pieces = q.pieces := rfl

@[simp] theorem upload_update_completed (q : Peer) :
    (upload_update q).completed = q.completed := rfl

@[simp] theorem upload_update_down (q : Peer) :
    (upload_update q).downloaded_current_turn = q.downloaded_current_turn := rfl

@[simp] theorem upload_update_up (q : Peer) :
    (upload_update q).uploaded_current_turn = q.uploaded_current_turn + 1 := rfl

@[simp] theorem upload_update_neighbors (q : Peer) :
    (upload_update q).neighbors = q.neighbors := rfl

@[simp] theorem fetch_cleanup_pieces (p : Peer) : (fetch_cleanup p).pieces = p.pieces := rfl

@[simp] theorem fetch_cleanup_completed (p : Peer) :
    (fetch_cleanup p).completed = p.completed := rfl

@[simp] theorem fetch_cleanup_up (p : Peer) :
    (fetch_cleanup p).uploaded_current_turn = 0 := rfl

@[simp] theorem fetch_cleanup_down (p : Peer) :
    (fetch_cleanup p).downloaded_current_turn = 0 := rfl

@[simp] theorem fetch_cleanup_neighbors (p : Peer) :
    (fetch_cleanup p).neighbors = p.neighbors := rfl

/-! ## Candidate-list lemmas -/

theorem mem_candidates_from {L : Nat} {S : List Peer} {p : Peer} {n : Nat} {c : Nat × Nat}
    (h : c ∈ candidates_from L S p n) :
    c.1 = n ∧ ∃ q, S[n]? = some q ∧ q.uploaded_current_turn < L ∧
      c.2 < p.pieces.length ∧ q.pieces.getD c.2 false = true ∧
      p.pieces.getD c.2 false = false := by
  unfold candidates_from at h
  split at h
  · simp at h
  next q hq =>
    split at h
    · simp at h
    next hu =>
      rw [List.mem_filterMap] at h
      obtain ⟨i, hi, hf⟩ := h
      split at hf
      next hcond =>
        injection hf with hf
        subst hf
        exact ⟨rfl, q, hq, Nat.lt_of_not_le hu, List.mem_range.mp hi, hcond.1, hcond.2⟩
      next => exact Option.noConfusion hf

theorem mem_candidates {L : Nat} {S : List Peer} {p : Peer} {c : Nat × Nat}
    (h : c ∈ candidates L S p) :
    c.1 ∈ p.neighbors ∧ ∃ q, S[c.1]? = some q ∧ q.uploaded_current_turn < L ∧
      c.2 < p.pieces.length ∧ q.pieces.getD c.2 false = true ∧
      p.pieces.getD c.2 false = false := by
  unfold candidates at h
  have key : ∀ ns : List Nat,
      c ∈ ns.foldr (fun n acc => candidates_from L S p n ++ acc) [] →
      ∃ n ∈ ns, c ∈ candidates_from L S p n := by
    intro ns
    induction ns with
    | nil => intro h0; simp at h0
    | cons m ms ih =>
      intro h0
      rw [List.foldr_cons, List.mem_append] at h0
      rcases h0 with h0 | h0
      · exact ⟨m, List.mem_cons_self _ _, h0⟩
      · obtain ⟨n, hn, hc⟩ := ih h0
        exact ⟨n, List.mem_cons_of_mem _ hn, hc⟩
  obtain ⟨n, hn, hc⟩ := key _ h
  obtain ⟨h1, hrest⟩ := mem_candidates_from hc
  subst h1
  exact ⟨by simpa using (List.mem_filter.mp hn).2, hrest⟩

theorem mem_candidates_ne {L : Nat} {S : List Peer} {p : Peer} {pid : Nat} {c : Nat × Nat}
    (hp : S[pid]? = some p) (h : c ∈ candidates L S p) : c.1 ≠ pid := by
  obtain ⟨-, q, hq, -, -, hqp, hpp⟩ := mem_candidates h
  intro he
  rw [he, hp] at hq
  injection hq with hq
  subst hq
  rw [hpp] at hqp
  exact Bool.noConfusion hqp

/-! ## The shape of one `fetch_step` call -/

theorem fetch_step_cases (L t : Nat) (S : List Peer) (pid k : Nat) :
    fetch_step L t S pid k = S ∨
    ∃ p c q, S[pid]? = some p ∧ S[c.1]? = some q ∧ c.1 ≠ pid ∧
      p.completed ≠ p.pieces.length ∧
      p.downloaded_current_turn < L ∧ q.uploaded_current_turn < L ∧
      c.2 < p.pieces.length ∧
      q.pieces.getD c.2 false = true ∧ p.pieces.getD c.2 false = false ∧
      c.1 ∈ p.neighbors ∧
      fetch_step L t S pid k =
        (S.set pid (download_update t p c)).set c.1 (upload_update q) := by
  unfold fetch_step
  split
  · exact Or.inl rfl
  next p hp =>
    split
    · exact Or.inl rfl
    next h1 =>
      split
      · exact Or.inl rfl
      next h2 =>
        split
        · exact Or.inl rfl
        next c0 rest hc =>
          have hmem : (c0 :: rest).getD (k % (c0 :: rest).length) c0 ∈ candidates L S p := by
            rw [hc]
            exact getD_mod_mem _ _ _ (by simp)
          obtain ⟨hnb, q, hq, hqu, hi, hqp, hpp⟩ := mem_candidates hmem
          have hne := mem_candidates_ne hp hmem
          have hlook :
              (S.set pid (download_update t p
                ((c0 :: rest).getD (k % (c0 :: rest).length) c0)))[
                  ((c0 :: rest).getD (k % (c0 :: rest).length) c0).1]? = some q := by
            rw [List.getElem?_set_ne (fun h => hne h.symm)]
            exact hq
          refine Or.inr ⟨p, (c0 :: rest).getD (k % (c0 :: rest).length) c0, q,
            hp, hq, hne, h1, Nat.lt_of_not_le h2, hqu, hi, hqp, hpp, hnb, ?_⟩
          simp only [hlook]

/-! ## Neighbor-set observations -/

theorem nbrs_eq_of_some {S : List Peer} {a : Nat} {p : Peer} (h : S[a]? = some p) :
    nbrs S a = p.neighbors := by
  unfold nbrs
  rw [h]
  rfl

theorem nbrs_eq_of_none {S : List Peer} {a : Nat} (h : S[a]? = none) :
    nbrs S a = ∅ := by
  unfold nbrs
  rw [h]
  rfl

theorem nbrs_set_same {S : List Peer} {i : Nat} {p p' : Peer} (h : S[i]? = some p)
    (hn : p'.neighbors = p.neighbors) (a : Nat) : nbrs (S.set i p') a = nbrs S a := by
  unfold nbrs
  rcases eq_or_ne i a with rfl | hne
  · rw [List.getElem?_set_self (getElem?_some_lt h), h]
    simpa using hn
  · rw [List.getElem?_set_ne hne]

theorem fetch_step_nbrs (L t : Nat) (S : List Peer) (pid k a : Nat) :
    nbrs (fetch_step L t S pid k) a = nbrs S a := by
  rcases fetch_step_cases L t S pid k with h | ⟨p, c, q, hp, hq, hne, -, -, -, -, -, -, -, he⟩
  · rw [h]
  · rw [he]
    have hq1 : (S.set pid (download_update t p c))[c.1]? = some q := by
      rw [List.getElem?_set_ne (fun h0 => hne h0.symm)]
      exact hq
    rw [nbrs_set_same hq1 (by simp) a, nbrs_set_same hp (by simp) a]

theorem cleanup_all_getElem? (S : List Peer) (a : Nat) :
    (cleanup_all S)[a]? = (S[a]?).map fetch_cleanup := by
  unfold cleanup_all
  rw [List.getElem?_map]

theorem cleanup_all_nbrs (S : List Peer) (a : Nat) :
    nbrs (cleanup_all S) a = nbrs S a := by
  unfold nbrs
  rw [cleanup_all_getElem?]
  cases S[a]? <;> rfl

/-! ## Generic invariant transport through a round and through the run -/

theorem process_plan_inv {L t : Nat} (P : List Peer → Prop)
    (hstep : ∀ T pid k, P T → P (fetch_step L t T pid k)) :
    ∀ (items : List (Nat × Nat)) (S : List Peer), P S → P (process_plan L t S items) := by
  intro items
  induction items with
  | nil => intro S h; exact h
  | cons it rest ih =>
    intro S h
    exact ih _ (hstep _ _ _ h)

theorem start_aux_inv {L cap : Nat} {sched : Nat → List Nat → List (Nat × Nat)}
    (P : List Peer → Prop)
    (hstep : ∀ T t pid k, P T → P (fetch_step L t T pid k))
    (hclean : ∀ T, P T → P (cleanup_all T)) :
    ∀ (fuel t : Nat) (S : List Peer), P S →
      P (start_aux L cap sched fuel t S).2.1 := by
  intro fuel
  induction fuel with
  | zero => intro t S h; exact h
  | succ f ih =>
    intro t S h
    have h2 : P (cleanup_all (process_plan L (t + 1) S (sched (t + 1) (make_plan L S)))) :=
      hclean _ (process_plan_inv P (fun T pid k => hstep T (t + 1) pid k) _ _ h)
    simp only [start_aux]
    split
    · exact h2
    split
    · exact h2
    · exact ih _ _ h2

theorem process_plan_nbrs (L t : Nat) (S : List Peer) (items : List (Nat × Nat)) (a : Nat) :
    nbrs (process_plan L t S items) a = nbrs S a := by
  have := process_plan_inv (L := L) (t := t) (fun T => nbrs T a = nbrs S a)
    (fun T pid k h => by
      show nbrs (fetch_step L t T pid k) a = nbrs S a
      rw [fetch_step_nbrs]
      exact h) items S rfl
  exact this

theorem start_aux_nbrs (L cap : Nat) (sched : Nat → List Nat → List (Nat × Nat))
    (fuel t : Nat) (S : List Peer) (a : Nat) :
    nbrs (start_aux L cap sched fuel t S).2.1 a = nbrs S a := by
  exact start_aux_inv (fun T => nbrs T a = nbrs S a)
    (fun T t' pid k h => by
      show nbrs (fetch_step L t' T pid k) a = nbrs S a
      rw [fetch_step_nbrs]
      exact h)
    (fun T h => by
      show nbrs (cleanup_all T) a = nbrs S a
      rw [cleanup_all_nbrs]
      exact h) fuel t S rfl

/-! ## Quota preservation -/

theorem fetch_step_quota {L : Nat} (t : Nat) (S : List Peer) (pid k : Nat)
    (h : QuotaOK L S) : QuotaOK L (fetch_step L t S pid k) := by
  rcases fetch_step_cases L t S pid k with
    he | ⟨p, c, q, hp, hq, hne, h1, h2, hqu, hi, hqp, hpp, hnb, he⟩
  · rw [he]; exact h
  · rw [he]
    intro x hx
    rcases List.mem_or_eq_of_mem_set hx with hx | rfl
    · rcases List.mem_or_eq_of_mem_set hx with hx | rfl
      · exact h x hx
      · refine ⟨?_, ?_⟩
        · simpa using (h p (mem_of_getElem?_some hp)).1
        · simp only [download_update_down]
          omega
    · refine ⟨?_, ?_⟩
      · simp only [upload_update_up]
        omega
      · simpa using (h q (mem_of_getElem?_some hq)).2

theorem cleanup_all_quota (L : Nat) (S : List Peer) : QuotaOK L (cleanup_all S) := by
  intro x hx
  obtain ⟨y, _, rfl⟩ := List.mem_map.mp hx
  simp

/-! ## Population-count preservation -/

theorem count_set_true : ∀ (l : List Bool) (i : Nat), i < l.length →
    l.getD i false = false → (l.set i true).count true = l.count true + 1 := by
  intro l
  induction l with
  | nil => intro i hi _; simp at hi
  | cons x xs ih =>
    intro i hi hg
    cases i with
    | zero =>
      have hx : x = false := by simpa using hg
      subst hx
      simp [List.count_cons]
    | succ j =>
      have hj : j < xs.length := by simpa using hi
      have hg2 : xs.getD j false = false := by simpa using hg
      show (x :: xs.set j true).count true = (x :: xs).count true + 1
      rw [List.count_cons, List.count_cons, ih j hj hg2]
      omega

theorem fetch_step_count {L : Nat} (t : Nat) (S : List Peer) (pid k : Nat)
    (h : CountOK S) : CountOK (fetch_step L t S pid k) := by
  rcases fetch_step_cases L t S pid k with
    he | ⟨p, c, q, hp, hq, hne, h1, h2, hqu, hi, hqp, hpp, hnb, he⟩
  · rw [he]; exact h
  · rw [he]
    intro x hx
    rcases List.mem_or_eq_of_mem_set hx with hx | rfl
    · rcases List.mem_or_eq_of_mem_set hx with hx | rfl
      · exact h x hx
      · rw [download_update_completed, download_update_pieces,
          count_set_true p.pieces c.2 hi hpp, h p (mem_of_getElem?_some hp)]
    · rw [upload_update_completed, upload_update_pieces, h q (mem_of_getElem?_some hq)]

theorem cleanup_all_count {S : List Peer} (h : CountOK S) : CountOK (cleanup_all S) := by
  intro x hx
  obtain ⟨y, hy, rfl⟩ := List.mem_map.mp hx
  simpa using h y hy

/-! ## Upload/download sum balance -/

theorem sum_map_set (f : Peer → Nat) :
    ∀ (S : List Peer) (i : Nat) (p q : Peer), S[i]? = some p →
      ((S.set i q).map f).sum + f p = (S.map f).sum + f q := by
  intro S
  induction S with
  | nil => intro i p q h; simp at h
  | cons x xs ih =>
    intro i p q h
    cases i with
    | zero =>
      rw [List.getElem?_cons_zero] at h
      injection h with h
      subst h
      simp only [List.set_cons_zero, List.map_cons, List.sum_cons]
      omega
    | succ j =>
      rw [List.getElem?_cons_succ] at h
      have := ih j p q h
      simp only [List.set_cons_succ, List.map_cons, List.sum_cons]
      omega

theorem fetch_step_sums {L : Nat} (t : Nat) (S : List Peer) (pid k : Nat)
    (h : sum_downloaded S = sum_uploaded S) :
    sum_downloaded (fetch_step L t S pid k) = sum_uploaded (fetch_step L t S pid k) := by
  rcases fetch_step_cases L t S pid k with
    he | ⟨p, c, q, hp, hq, hne, h1, h2, hqu, hi, hqp, hpp, hnb, he⟩
  · rw [he]; exact h
  · rw [he]
    have hq1 : (S.set pid (download_update t p c))[c.1]? = some q := by
      rw [List.getElem?_set_ne (fun h0 => hne h0.symm)]
      exact hq
    have d1 := sum_map_set Peer.downloaded_current_turn S pid p (download_update t p c) hp
    have d2 := sum_map_set Peer.downloaded_current_turn
      (S.set pid (download_update t p c)) c.1 q (upload_update q) hq1
    have u1 := sum_map_set Peer.uploaded_current_turn S pid p (download_update t p c) hp
    have u2 := sum_map_set Peer.uploaded_current_turn
      (S.set pid (download_update t p c)) c.1 q (upload_update q) hq1
    unfold sum_downloaded sum_uploaded at h ⊢
    simp only [download_update_down, download_update_up, upload_update_down,
      upload_update_up] at d1 d2 u1 u2
    omega

theorem sum_downloaded_cleanup (S : List Peer) : sum_downloaded (cleanup_all S) = 0 := by
  induction S with
  | nil => rfl
  | cons x xs ih =>
    simp only [cleanup_all, List.map_cons] at ih ⊢
    simpa [sum_downloaded] using ih

theorem sum_uploaded_cleanup (S : List Peer) : sum_uploaded (cleanup_all S) = 0 := by
  induction S with
  | nil => rfl
  | cons x xs ih =>
    simp only [cleanup_all, List.map_cons] at ih ⊢
    simpa [sum_uploaded] using ih

/-! ## Unreachable-component lemmas -/

theorem count_true_zero_getD {l : List Bool} (h : l.count true = 0) (i : Nat) :
    l.getD i false = false := by
  by_cases hi : i < l.length
  · rw [List.getD_eq_getElem l false hi]
    by_contra hne
    have ht : l[i] = true := by
      revert hne
      cases l[i] <;> simp
    exact (List.count_eq_zero.mp h) (ht ▸ List.getElem_mem hi)
  · exact List.getD_eq_default l false (Nat.le_of_not_lt hi)

theorem fetch_step_blank {L t : Nat} {S : List Peer} {A : Finset Nat}
    (hC : closed_under_nbrs S A) (hB : ∀ a ∈ A, blank_at S a = true)
    (pid k : Nat) : ∀ a ∈ A, blank_at (fetch_step L t S pid k) a = true := by
  intro a ha
  rcases fetch_step_cases L t S pid k with
    he | ⟨p, c, q, hp, hq, hne, h1, h2, hqu, hi, hqp, hpp, hnb, he⟩
  · rw [he]; exact hB a ha
  · have hqcount : q.pieces.count true ≠ 0 := by
      intro h0
      rw [count_true_zero_getD h0 c.2] at hqp
      exact Bool.noConfusion hqp
    have hc1A : c.1 ∉ A := by
      intro hmem
      have hb := hB c.1 hmem
      unfold blank_at at hb
      rw [hq] at hb
      simp at hb
      exact hqcount hb.2
    have hpidA : pid ∉ A := by
      intro hmem
      have hsub := hC pid hmem
      rw [nbrs_eq_of_some hp] at hsub
      exact hc1A (hsub hnb)
    have hane : a ≠ pid := fun h0 => hpidA (h0 ▸ ha)
    have hane2 : a ≠ c.1 := fun h0 => hc1A (h0 ▸ ha)
    rw [he]
    unfold blank_at
    rw [List.getElem?_set_ne (fun h0 => hane2 h0.symm),
      List.getElem?_set_ne (fun h0 => hane h0.symm)]
    have hb := hB a ha
    unfold blank_at at hb
    exact hb

theorem cleanup_all_blank {S : List Peer} {A : Finset Nat}
    (hB : ∀ a ∈ A, blank_at S a = true) : ∀ a ∈ A, blank_at (cleanup_all S) a = true := by
  intro a ha
  have hb := hB a ha
  unfold blank_at at hb ⊢
  rw [cleanup_all_getElem?]
  cases hsa : S[a]? with
  | none => rfl
  | some p =>
    rw [hsa] at hb
    simpa using hb

theorem fetch_step_pieces_length (L t : Nat) (S : List Peer) (pid k a : Nat) :
    ((fetch_step L t S pid k)[a]?).map (fun p => p.pieces.length) =
      (S[a]?).map (fun p => p.pieces.length) := by
  rcases fetch_step_cases L t S pid k with
    he | ⟨p, c, q, hp, hq, hne, h1, h2, hqu, hi, hqp, hpp, hnb, he⟩
  · rw [he]
  · rw [he]
    rcases eq_or_ne a c.1 with rfl | ha1
    · have hlt : c.1 < (S.set pid (download_update t p c)).length := by
        rw [List.length_set]
        exact getElem?_some_lt hq
      rw [List.getElem?_set_self hlt, hq]
      simp
    · rw [List.getElem?_set_ne (fun h0 => ha1 h0.symm)]
      rcases eq_or_ne a pid with rfl | ha2
      · rw [List.getElem?_set_self (getElem?_some_lt hp), hp]
        simp
      · rw [List.getElem?_set_ne (fun h0 => ha2 h0.symm)]

theorem cleanup_all_pieces_length (S : List Peer) (a : Nat) :
    ((cleanup_all S)[a]?).map (fun p => p.pieces.length) =
      (S[a]?).map (fun p => p.pieces.length) := by
  rw [cleanup_all_getElem?]
  cases S[a]? <;> rfl

theorem pieces_len_at_eq {S T : List Peer} {a l : Nat}
    (h : (T[a]?).map (fun p => p.pieces.length) = (S[a]?).map (fun p => p.pieces.length))
    (hs : pieces_len_at S a l = true) : pieces_len_at T a l = true := by
  unfold pieces_len_at at hs ⊢
  cases hS : S[a]? with
  | none => rw [hS] at hs; exact Bool.noConfusion hs
  | some p =>
    rw [hS] at h hs
    cases hT : T[a]? with
    | none => rw [hT] at h; exact Option.noConfusion h
    | some r =>
      rw [hT] at h
      simp at h hs ⊢
      omega

theorem fetch_step_unreach {L t : Nat} {A : Finset Nat} {a0 l : Nat} {S : List Peer}
    (h : UnreachableInv A a0 l S) (pid k : Nat) :
    UnreachableInv A a0 l (fetch_step L t S pid k) := by
  obtain ⟨hC, hB, hlen⟩ := h
  refine ⟨?_, fetch_step_blank hC hB pid k, ?_⟩
  · intro a ha
    rw [fetch_step_nbrs]
    exact hC a ha
  · exact pieces_len_at_eq (fetch_step_pieces_length L t S pid k a0) hlen

theorem cleanup_all_unreach {A : Finset Nat} {a0 l : Nat} {S : List Peer}
    (h : UnreachableInv A a0 l S) : UnreachableInv A a0 l (cleanup_all S) := by
  obtain ⟨hC, hB, hlen⟩ := h
  refine ⟨?_, cleanup_all_blank hB, ?_⟩
  · intro a ha
    rw [cleanup_all_nbrs]
    exact hC a ha
  · exact pieces_len_at_eq (cleanup_all_pieces_length S a0) hlen

theorem not_all_done_of_unreach {A : Finset Nat} {a0 l : Nat} {S : List Peer}
    (ha0 : a0 ∈ A) (hl : 0 < l) (h : UnreachableInv A a0 l S) : all_done S = false := by
  obtain ⟨-, hB, hlen⟩ := h
  unfold pieces_len_at at hlen
  cases hS : S[a0]? with
  | none => rw [hS] at hlen; exact Bool.noConfusion hlen
  | some p =>
    rw [hS] at hlen
    have hb := hB a0 ha0
    unfold blank_at at hb
    rw [hS] at hb
    simp at hlen hb
    unfold all_done
    rw [List.all_eq_false]
    refine ⟨p, mem_of_getElem?_some hS, ?_⟩
    simp [hb.1]
    omega

theorem start_aux_unreach (L cap : Nat) (sched : Nat → List Nat → List (Nat × Nat))
    {A : Finset Nat} {a0 l : Nat} (ha0 : a0 ∈ A) (hl : 0 < l) :
    ∀ (fuel t : Nat) (S : List Peer), UnreachableInv A a0 l S →
      t + fuel = cap + 1 → 0 < fuel →
      (start_aux L cap sched fuel t S).1 = cap + 1 ∧
      (start_aux L cap sched fuel t S).2.2 = false ∧
      UnreachableInv A a0 l (start_aux L cap sched fuel t S).2.1 := by
  intro fuel
  induction fuel with
  | zero => intro t S _ _ h0; omega
  | succ f ih =>
    intro t S hInv ht _
    have hInv2 : UnreachableInv A a0 l
        (cleanup_all (process_plan L (t + 1) S (sched (t + 1) (make_plan L S)))) :=
      cleanup_all_unreach
        (process_plan_inv (UnreachableInv A a0 l)
          (fun T pid k hT => fetch_step_unreach hT pid k) _ _ hInv)
    simp only [start_aux]
    rw [not_all_done_of_unreach ha0 hl hInv2]
    simp only [Bool.false_eq_true, if_false]
    by_cases hcap : cap < t + 1
    · rw [if_pos hcap]
      exact ⟨by omega, rfl, hInv2⟩
    · rw [if_neg hcap]
      exact ih (t + 1) _ hInv2 (by omega) (by omega)

/-! ## Topology-construction lemmas -/

theorem nbrs_set_self {S : List Peer} {i : Nat} (hi : i < S.length) (p' : Peer) :
    nbrs (S.set i p') i = p'.neighbors := by
  unfold nbrs
  rw [List.getElem?_set_self hi]
  rfl

theorem nbrs_set_ne {S : List Peer} {i j : Nat} (hne : i ≠ j) (p' : Peer) :
    nbrs (S.set i p') j = nbrs S j := by
  unfold nbrs
  rw [List.getElem?_set_ne hne]

theorem getElem?_append_left {S : List Peer} {c : Nat} (hc : c < S.length) (p : Peer) :
    (S ++ [p])[c]? = S[c]? := by
  rw [List.getElem?_append, if_pos hc]

theorem getElem?_append_last' {S : List Peer} {p : Peer} {n : Nat} (hn : n = S.length) :
    (S ++ [p])[n]? = some p := by
  subst hn
  exact List.getElem?_concat_length S p

theorem set_append_left {S : List Peer} {p : Peer} {c : Nat} (hc : c < S.length) (q' : Peer) :
    (S ++ [p]).set c q' = S.set c q' ++ [p] := by
  rw [List.set_append, if_pos hc]

theorem set_append_last' {S : List Peer} {p p' : Peer} {n : Nat} (hn : n = S.length) :
    (S ++ [p]).set n p' = S ++ [p'] := by
  subst hn
  rw [List.set_append]
  simp

theorem connect_length (S : List Peer) (a b : Nat) : (connect S a b).length = S.length := by
  unfold connect
  split
  · dsimp only
    split <;> simp
  · rfl

theorem nbrs_connect {S : List Peer} {a b : Nat} (ha : a < S.length) (hb : b < S.length)
    (hab : a ≠ b) (x : Nat) :
    nbrs (connect S a b) x =
      if x = a then insert b (nbrs S a)
      else if x = b then insert a (nbrs S b) else nbrs S x := by
  have hpa : S[a]? = some S[a] := List.getElem?_eq_getElem ha
  have hpb : S[b]? = some S[b] := List.getElem?_eq_getElem hb
  have hb1 : (S.set a { S[a] with neighbors := insert b (S[a]).neighbors })[b]? =
      some S[b] := by
    rw [List.getElem?_set_ne hab]
    exact hpb
  unfold connect
  rw [hpa, hpb]
  dsimp only
  rw [hb1]
  rcases eq_or_ne x a with rfl | hxa
  · rw [if_pos rfl, nbrs_set_ne (fun h0 => hab h0.symm), nbrs_set_self ha,
      nbrs_eq_of_some hpa]
  · rw [if_neg hxa]
    rcases eq_or_ne x b with rfl | hxb
    · rw [if_pos rfl]
      have hb2 : x < (S.set a { S[a] with neighbors := insert x (S[a]).neighbors }).length := by
        rw [List.length_set]
        exact hb
      rw [nbrs_set_self hb2, nbrs_eq_of_some hpb]
    · rw [if_neg hxb, nbrs_set_ne (fun h0 => hxb h0.symm),
        nbrs_set_ne (fun h0 => hxa h0.symm)]

theorem mem_nbrs_connect {S : List Peer} {a b : Nat} (ha : a < S.length) (hb : b < S.length)
    (hab : a ≠ b) (x y : Nat) :
    y ∈ nbrs (connect S a b) x ↔
      y ∈ nbrs S x ∨ (x = a ∧ y = b) ∨ (x = b ∧ y = a) := by
  rw [nbrs_connect ha hb hab x]
  rcases eq_or_ne x a with rfl | hxa
  · rw [if_pos rfl]
    simp only [Finset.mem_insert]
    tauto
  · rw [if_neg hxa]
    rcases eq_or_ne x b with rfl | hxb
    · rw [if_pos rfl]
      simp only [Finset.mem_insert]
      tauto
    · rw [if_neg hxb]
      tauto

/-- The bundle of graph invariants maintained during construction. -/
def GraphInv (T : List Peer) : Prop := SymmNbrs T ∧ IrreflNbrs T ∧ BoundedNbrs T

theorem connect_graphinv {S : List Peer} {a b : Nat} (ha : a < S.length)
    (hb : b < S.length) (hab : a ≠ b) (h : GraphInv S) : GraphInv (connect S a b) := by
  obtain ⟨hS, hI, hB⟩ := h
  refine ⟨?_, ?_, ?_⟩
  · intro x y
    rw [mem_nbrs_connect ha hb hab x y, mem_nbrs_connect ha hb hab y x, hS x y]
    tauto
  · intro x
    rw [mem_nbrs_connect ha hb hab x x]
    rintro (h0 | ⟨rfl, h0⟩ | ⟨rfl, h0⟩)
    · exact hI x h0
    · exact hab h0
    · exact hab h0.symm
  · intro x y h0
    rw [connect_length]
    rw [mem_nbrs_connect ha hb hab x y] at h0
    rcases h0 with h0 | ⟨-, rfl⟩ | ⟨-, rfl⟩
    · exact hB x y h0
    · exact hb
    · exact ha

theorem graphinv_set_same {S : List Peer} {i : Nat} {p p' : Peer} (h : S[i]? = some p)
    (hn : p'.neighbors = p.neighbors) (hInv : GraphInv S) : GraphInv (S.set i p') := by
  obtain ⟨hS, hI, hB⟩ := hInv
  refine ⟨?_, ?_, ?_⟩
  · intro x y
    rw [nbrs_set_same h hn, nbrs_set_same h hn]
    exact hS x y
  · intro x
    rw [nbrs_set_same h hn]
    exact hI x
  · intro x y h0
    rw [List.length_set]
    rw [nbrs_set_same h hn] at h0
    exact hB x y h0

theorem nbrs_append (T : List Peer) (x : Peer) (a : Nat) :
    nbrs (T ++ [x]) a = if a = T.length then x.neighbors else nbrs T a := by
  rcases Nat.lt_trichotomy a T.length with hlt | rfl | hgt
  · rw [if_neg (Nat.ne_of_lt hlt)]
    unfold nbrs
    rw [getElem?_append_left hlt]
  · rw [if_pos rfl]
    unfold nbrs
    rw [getElem?_append_last' rfl]
    rfl
  · rw [if_neg (Nat.ne_of_gt hgt)]
    have h1 : (T ++ [x])[a]? = none := by
      rw [List.getElem?_eq_none]
      simp
      omega
    have h2 : T[a]? = none := by
      rw [List.getElem?_eq_none]
      omega
    rw [nbrs_eq_of_none h1, nbrs_eq_of_none h2]

theorem graphinv_append_fresh {T : List Peer} (h : GraphInv T) (x : Peer)
    (hx : x.neighbors = ∅) : GraphInv (T ++ [x]) := by
  obtain ⟨hS, hI, hB⟩ := h
  have hn : ∀ a, nbrs (T ++ [x]) a = if a = T.length then (∅ : Finset Nat) else nbrs T a := by
    intro a
    rw [nbrs_append, hx]
  refine ⟨?_, ?_, ?_⟩
  · intro a b
    rw [hn a, hn b]
    rcases eq_or_ne a T.length with rfl | hane
    · rw [if_pos rfl]
      rcases eq_or_ne b T.length with rfl | hbne
      · rw [if_pos rfl]
      · rw [if_neg hbne]
        constructor
        · intro h0
          exact absurd h0 (Finset.not_mem_empty b)
        · intro h0
          exact absurd (hB b _ h0) (lt_irrefl _)
    · rw [if_neg hane]
      rcases eq_or_ne b T.length with rfl | hbne
      · rw [if_pos rfl]
        constructor
        · intro h0
          exact absurd (hB a _ h0) (lt_irrefl _)
        · intro h0
          exact absurd h0 (Finset.not_mem_empty a)
      · rw [if_neg hbne]
        exact hS a b
  · intro a
    rw [hn a]
    rcases eq_or_ne a T.length with rfl | hane
    · rw [if_pos rfl]
      exact Finset.not_mem_empty _
    · rw [if_neg hane]
      exact hI a
  · intro a b h0
    rw [List.length_append]
    rw [hn a] at h0
    rcases eq_or_ne a T.length with rfl | hane
    · rw [if_pos rfl] at h0
      exact absurd h0 (Finset.not_mem_empty b)
    · rw [if_neg hane] at h0
      have := hB a b h0
      simp
      omega

theorem connect_loop_cons (softL maxL budget n c : Nat) (rest : List Nat)
    (S : List Peer) (p : Peer) :
    connect_loop softL maxL budget n (c :: rest) S p =
      match S[c]? with
      | none => connect_loop softL maxL budget n rest S p
      | some q =>
        if q.neighbors.card < maxL then
          if softL ≤ (insert c p.neighbors).card then
            (S.set c { q with neighbors := insert n q.neighbors },
             { p with neighbors := insert c p.neighbors })
          else
            connect_loop softL maxL budget n rest
              (S.set c { q with neighbors := insert n q.neighbors })
              { p with neighbors := insert c p.neighbors }
        else
          if budget < p.failed_connection_attempts + 1 then
            (S, { p with failed_connection_attempts := p.failed_connection_attempts + 1 })
          else
            connect_loop softL maxL budget n rest S
              { p with failed_connection_attempts := p.failed_connection_attempts + 1 } := rfl

theorem connect_append_eq {S : List Peer} {q : Peer} {c : Nat} (hq : S[c]? = some q)
    (p : Peer) (n : Nat) (hn : n = S.length) :
    connect (S ++ [p]) c n =
      S.set c { q with neighbors := insert n q.neighbors } ++
        [{ p with neighbors := insert c p.neighbors }] := by
  subst hn
  have hc : c < S.length := getElem?_some_lt hq
  have h1 : (S ++ [p])[c]? = some q := by
    rw [getElem?_append_left hc]
    exact hq
  have h2 : (S ++ [p])[S.length]? = some p := getElem?_append_last' rfl
  unfold connect
  rw [h1, h2]
  dsimp only
  have h3 : ((S ++ [p]).set c
      { q with neighbors := insert S.length q.neighbors })[S.length]? = some p := by
    rw [set_append_left hc]
    exact getElem?_append_last' (List.length_set S c _).symm
  rw [h3]
  dsimp only
  rw [set_append_left hc]
  exact set_append_last' (List.length_set S c _).symm

theorem connect_loop_graphinv (softL maxL budget : Nat) :
    ∀ (cs : List Nat) (n : Nat) (S : List Peer) (p : Peer), n = S.length →
      GraphInv (S ++ [p]) →
      GraphInv ((connect_loop softL maxL budget n cs S p).1 ++
        [(connect_loop softL maxL budget n cs S p).2]) ∧
      (connect_loop softL maxL budget n cs S p).1.length = S.length := by
  intro cs
  induction cs with
  | nil =>
    intro n S p hn h
    exact ⟨h, rfl⟩
  | cons c rest ih =>
    intro n S p hn h
    subst hn
    rw [connect_loop_cons]
    split
    · exact ih S.length S p rfl h
    next q hq =>
      have hc : c < S.length := getElem?_some_lt hq
      split
      next h1 =>
        have hGI : GraphInv (S.set c { q with neighbors := insert S.length q.neighbors } ++
            [{ p with neighbors := insert c p.neighbors }]) := by
          rw [← connect_append_eq hq p S.length rfl]
          refine connect_graphinv ?_ ?_ ?_ h
          · rw [List.length_append]
            omega
          · rw [List.length_append]
            simp
          · omega
        split
        next h2 => exact ⟨hGI, List.length_set S c _⟩
        next h2 =>
          have hr := ih S.length (S.set c { q with neighbors := insert S.length q.neighbors })
            { p with neighbors := insert c p.neighbors } (List.length_set S c _).symm hGI
          refine ⟨hr.1, ?_⟩
          rw [hr.2, List.length_set]
      next h1 =>
        have hGI2 : GraphInv (S ++
            [{ p with failed_connection_attempts := p.failed_connection_attempts + 1 }]) := by
          have heq : (S ++ [p]).set S.length
              { p with failed_connection_attempts := p.failed_connection_attempts + 1 } =
              S ++ [{ p with failed_connection_attempts := p.failed_connection_attempts + 1 }] :=
            set_append_last' rfl
          rw [← heq]
          exact graphinv_set_same (getElem?_append_last' rfl) rfl h
        split
        next h3 => exact ⟨hGI2, rfl⟩
        next h3 => exact ih S.length S _ rfl hGI2

theorem connect_loop_degree {softL maxL : Nat} (budget : Nat) (hsm : softL ≤ maxL) :
    ∀ (cs : List Nat) (n : Nat) (S : List Peer) (p : Peer), n = S.length →
      (∀ a, (nbrs (S ++ [p]) a).card ≤ maxL) →
      p.neighbors.card < softL →
      (∀ a, (nbrs ((connect_loop softL maxL budget n cs S p).1 ++
        [(connect_loop softL maxL budget n cs S p).2]) a).card ≤ maxL) ∧
      (connect_loop softL maxL budget n cs S p).1.length = S.length := by
  intro cs
  induction cs with
  | nil =>
    intro n S p hn h hp
    exact ⟨h, rfl⟩
  | cons c rest ih =>
    intro n S p hn h hp
    subst hn
    rw [connect_loop_cons]
    split
    · exact ih S.length S p rfl h hp
    next q hq =>
      have hc : c < S.length := getElem?_some_lt hq
      split
      next h1 =>
        have hqn : nbrs (S ++ [p]) c = q.neighbors := by
          apply nbrs_eq_of_some
          rw [getElem?_append_left hc]
          exact hq
        have hpn : nbrs (S ++ [p]) S.length = p.neighbors :=
          nbrs_eq_of_some (getElem?_append_last' rfl)
        have hcard : ∀ a, (nbrs (S.set c { q with neighbors := insert S.length q.neighbors } ++
            [{ p with neighbors := insert c p.neighbors }]) a).card ≤ maxL := by
          intro a
          rw [← connect_append_eq hq p S.length rfl,
            nbrs_connect (by rw [List.length_append]; omega)
              (by rw [List.length_append]; simp) (by omega) a]
          rcases eq_or_ne a c with rfl | hac
          · rw [if_pos rfl, hqn]
            calc (insert S.length q.neighbors).card ≤ q.neighbors.card + 1 :=
                Finset.card_insert_le _ _
            _ ≤ maxL := by omega
          · rw [if_neg hac]
            rcases eq_or_ne a S.length with rfl | han
            · rw [if_pos rfl, hpn]
              calc (insert c p.neighbors).card ≤ p.neighbors.card + 1 :=
                  Finset.card_insert_le _ _
              _ ≤ maxL := by omega
            · rw [if_neg han]
              exact h a
        split
        next h2 => exact ⟨hcard, List.length_set S c _⟩
        next h2 =>
          have hr := ih S.length (S.set c { q with neighbors := insert S.length q.neighbors })
            { p with neighbors := insert c p.neighbors } (List.length_set S c _).symm hcard
            (by simpa using Nat.lt_of_not_le h2)
          refine ⟨hr.1, ?_⟩
          rw [hr.2, List.length_set]
      next h1 =>
        have heq : (S ++ [p]).set S.length
            { p with failed_connection_attempts := p.failed_connection_attempts + 1 } =
            S ++ [{ p with failed_connection_attempts := p.failed_connection_attempts + 1 }] :=
          set_append_last' rfl
        have hsame : ∀ a, nbrs ((S ++ [p]).set S.length
            { p with failed_connection_attempts := p.failed_connection_attempts + 1 }) a =
            nbrs (S ++ [p]) a :=
          nbrs_set_same (getElem?_append_last' rfl) rfl
        have hcard2 : ∀ a, (nbrs (S ++
            [{ p with failed_connection_attempts := p.failed_connection_attempts + 1 }]) a).card
            ≤ maxL := by
          intro a
          rw [← heq, hsame a]
          exact h a
        split
        next h3 => exact ⟨hcard2, rfl⟩
        next h3 => exact ih S.length S _ rfl hcard2 hp

/-- All peers still hold no piece and zero `completed` (true of every peer
before seeding). -/
def AllBlank (T : List Peer) : Prop :=
  ∀ x ∈ T, x.completed = 0 ∧ x.pieces.count true = 0

theorem connect_loop_payload (softL maxL budget n : Nat) :
    ∀ (cs : List Nat) (S : List Peer) (p : Peer),
      AllBlank S → p.completed = 0 ∧ p.pieces.count true = 0 →
      AllBlank (connect_loop softL maxL budget n cs S p).1 ∧
      ((connect_loop softL maxL budget n cs S p).2.completed = 0 ∧
       (connect_loop softL maxL budget n cs S p).2.pieces.count true = 0) := by
  intro cs
  induction cs with
  | nil =>
    intro S p hS hp
    exact ⟨hS, hp⟩
  | cons c rest ih =>
    intro S p hS hp
    rw [connect_loop_cons]
    split
    · exact ih S p hS hp
    next q hq =>
      have hSset : AllBlank (S.set c { q with neighbors := insert n q.neighbors }) := by
        intro x hx
        rcases List.mem_or_eq_of_mem_set hx with hx | rfl
        · exact hS x hx
        · exact hS q (mem_of_getElem?_some hq)
      split
      next h1 =>
        split
        next h2 => exact ⟨hSset, hp⟩
        next h2 => exact ih _ _ hSset hp
      next h1 =>
        split
        next h3 => exact ⟨hS, hp⟩
        next h3 => exact ih _ _ hS hp

theorem buildA_step_eq (softL maxL budget piece_count : Nat) (orders : Nat → List Nat)
    (S : List Peer) (n : Nat) :
    buildA_step softL maxL budget piece_count orders S n =
      if n = 0 then S ++ [Peer.init n piece_count]
      else
        (connect_loop softL maxL budget n (orders n) S (Peer.init n piece_count)).1 ++
          [(connect_loop softL maxL budget n (orders n) S (Peer.init n piece_count)).2] := rfl

theorem init_count_true (n piece_count : Nat) :
    (Peer.init n piece_count).pieces.count true = 0 := by
  show (List.replicate piece_count false).count true = 0
  rw [List.count_replicate]
  simp

theorem buildA_fold_inv (softL maxL budget piece_count : Nat) (orders : Nat → List Nat) :
    ∀ pc : Nat,
      GraphInv ((List.range pc).foldl (buildA_step softL maxL budget piece_count orders) []) ∧
      ((List.range pc).foldl (buildA_step softL maxL budget piece_count orders) []).length
        = pc ∧
      AllBlank ((List.range pc).foldl (buildA_step softL maxL budget piece_count orders) []) := by
  intro pc
  induction pc with
  | zero =>
    refine ⟨⟨?_, ?_, ?_⟩, rfl, ?_⟩
    · intro a b
      rw [nbrs_eq_of_none (by simp), nbrs_eq_of_none (by simp)]
      simp
    · intro a
      rw [nbrs_eq_of_none (by simp)]
      exact Finset.not_mem_empty a
    · intro a b h0
      rw [nbrs_eq_of_none (by simp)] at h0
      exact absurd h0 (Finset.not_mem_empty b)
    · intro x hx
      simp at hx
  | succ m ih =>
    obtain ⟨hGI, hlen, hAB⟩ := ih
    rw [List.range_succ, List.foldl_append, List.foldl_cons, List.foldl_nil, buildA_step_eq]
    by_cases hm : m = 0
    · rw [if_pos hm]
      refine ⟨graphinv_append_fresh hGI _ rfl, ?_, ?_⟩
      · rw [List.length_append, hlen]
        rfl
      · intro x hx
        rcases List.mem_append.mp hx with hx | hx
        · exact hAB x hx
        · simp at hx
          subst hx
          exact ⟨rfl, init_count_true _ _⟩
    · rw [if_neg hm]
      have hr := connect_loop_graphinv softL maxL budget (orders m) m _ (Peer.init m piece_count)
        hlen.symm (graphinv_append_fresh hGI _ rfl)
      have hpay := connect_loop_payload softL maxL budget m (orders m) _
        (Peer.init m piece_count) hAB ⟨rfl, init_count_true _ _⟩
      refine ⟨hr.1, ?_, ?_⟩
      · rw [List.length_append, hr.2, hlen]
        rfl
      · intro x hx
        rcases List.mem_append.mp hx with hx | hx
        · exact hpay.1 x hx
        · simp at hx
          subst hx
          exact hpay.2

theorem buildA_fold_degree {softL maxL : Nat} (budget piece_count : Nat)
    (orders : Nat → List Nat) (h0 : 0 < softL) (hsm : softL ≤ maxL) :
    ∀ pc : Nat, ∀ a,
      (nbrs ((List.range pc).foldl (buildA_step softL maxL budget piece_count orders) [])
        a).card ≤ maxL := by
  intro pc
  induction pc with
  | zero =>
    intro a
    rw [nbrs_eq_of_none (by simp)]
    simp
  | succ m ih =>
    rw [List.range_succ, List.foldl_append, List.foldl_cons, List.foldl_nil, buildA_step_eq]
    have hlen := (buildA_fold_inv softL maxL budget piece_count orders m).2.1
    by_cases hm : m = 0
    · rw [if_pos hm]
      intro a
      rw [nbrs_append]
      split
      · show (Peer.init _ piece_count).neighbors.card ≤ maxL
        simp [Peer.init]
      · exact ih a
    · rw [if_neg hm]
      have hcard : ∀ a,
          (nbrs (((List.range m).foldl (buildA_step softL maxL budget piece_count orders) [])
            ++ [Peer.init m piece_count]) a).card ≤ maxL := by
        intro a
        rw [nbrs_append]
        split
        · show (Peer.init _ piece_count).neighbors.card ≤ maxL
          simp [Peer.init]
        · exact ih a
      have hd := connect_loop_degree budget hsm (orders m) m _ (Peer.init m piece_count)
        hlen.symm hcard (by show (∅ : Finset Nat).card < softL; simpa using h0)
      exact hd.1

theorem set_seed_nbrs (S : List Peer) (i a : Nat) : nbrs (set_seed S i) a = nbrs S a := by
  unfold set_seed
  split
  · rfl
  next p hp =>
    have h2 : nbrs (S.set i
        { p with
          pieces := List.replicate p.pieces.length true
          completed := p.pieces.length }) a = nbrs S a := nbrs_set_same hp (by rfl) a
    exact h2

theorem set_seed_length (S : List Peer) (i : Nat) : (set_seed S i).length = S.length := by
  unfold set_seed
  split
  · rfl
  · simp

theorem allblank_count {S : List Peer} (h : AllBlank S) : CountOK S := by
  intro x hx
  rw [(h x hx).1, (h x hx).2]

theorem set_seed_count {S : List Peer} (hS : CountOK S) (i : Nat) : CountOK (set_seed S i) := by
  unfold set_seed
  split
  · exact hS
  next p hp =>
    intro x hx
    rcases List.mem_or_eq_of_mem_set hx with hx | rfl
    · exact hS x hx
    · show p.pieces.length = (List.replicate p.pieces.length true).count true
      rw [List.count_replicate]
      simp

theorem buildA_graphinv (pc piece_count softL maxL budget : Nat) (orders : Nat → List Nat) :
    GraphInv (buildA pc piece_count softL maxL budget orders) := by
  unfold buildA
  obtain ⟨⟨hS, hI, hB⟩, hlen, -⟩ := buildA_fold_inv softL maxL budget piece_count orders pc
  refine ⟨?_, ?_, ?_⟩
  · intro a b
    rw [set_seed_nbrs, set_seed_nbrs]
    exact hS a b
  · intro a
    rw [set_seed_nbrs]
    exact hI a
  · intro a b h0
    rw [set_seed_length]
    rw [set_seed_nbrs] at h0
    exact hB a b h0

theorem buildA_degree (pc piece_count softL maxL budget : Nat) (orders : Nat → List Nat)
    (h0 : 0 < softL) (hsm : softL ≤ maxL) (a : Nat) :
    (nbrs (buildA pc piece_count softL maxL budget orders) a).card ≤ maxL := by
  unfold buildA
  rw [set_seed_nbrs]
  exact buildA_fold_degree budget piece_count orders h0 hsm pc a

theorem buildA_count (pc piece_count softL maxL budget : Nat) (orders : Nat → List Nat) :
    CountOK (buildA pc piece_count softL maxL budget orders) := by
  unfold buildA
  exact set_seed_count
    (allblank_count (buildA_fold_inv softL maxL budget piece_count orders pc).2.2) 0

theorem allblank_set {S : List Peer} {i : Nat} {p p' : Peer} (h : AllBlank S)
    (hp : S[i]? = some p) (hc : p'.completed = p.completed) (hpc : p'.pieces = p.pieces) :
    AllBlank (S.set i p') := by
  intro x hx
  rcases List.mem_or_eq_of_mem_set hx with hx | rfl
  · exact h x hx
  · obtain ⟨h1, h2⟩ := h p (mem_of_getElem?_some hp)
    exact ⟨by rw [hc, h1], by rw [hpc, h2]⟩

theorem connect_allblank (S : List Peer) (a b : Nat) (h : AllBlank S) :
    AllBlank (connect S a b) := by
  unfold connect
  split
  next _ _ pa pb hpa hpb =>
    dsimp only
    split
    next hb1 => exact allblank_set h hpa rfl rfl
    next pb' hb1 => exact allblank_set (allblank_set h hpa rfl rfl) hb1 rfl rfl
  next => exact h

theorem connect_fold_allblank :
    ∀ (edges : List (Nat × Nat)) (S : List Peer), AllBlank S →
      AllBlank (edges.foldl (fun T e => connect T e.1 e.2) S) := by
  intro edges
  induction edges with
  | nil => intro S h; exact h
  | cons e rest ih =>
    intro S h
    rw [List.foldl_cons]
    exact ih _ (connect_allblank S e.1 e.2 h)

theorem connect_fold_inv (pc : Nat) :
    ∀ (edges : List (Nat × Nat)) (S : List Peer), S.length = pc →
      (∀ e ∈ edges, e.1 < pc ∧ e.2 < pc ∧ e.1 ≠ e.2) →
      GraphInv S →
      GraphInv (edges.foldl (fun T e => connect T e.1 e.2) S) ∧
      (edges.foldl (fun T e => connect T e.1 e.2) S).length = pc := by
  intro edges
  induction edges with
  | nil =>
    intro S hlen hE hGI
    exact ⟨hGI, hlen⟩
  | cons e rest ih =>
    intro S hlen hE hGI
    rw [List.foldl_cons]
    obtain ⟨he1, he2, he3⟩ := hE e (List.mem_cons_self _ _)
    exact ih (connect S e.1 e.2) (by rw [connect_length]; exact hlen)
      (fun e' he' => hE e' (List.mem_cons_of_mem _ he'))
      (connect_graphinv (by omega) (by omega) he3 hGI)

theorem init_map_length (pc piece_count : Nat) :
    ((List.range pc).map (fun n => Peer.init n piece_count)).length = pc := by
  simp

theorem nbrs_init_map (pc piece_count a : Nat) :
    nbrs ((List.range pc).map (fun n => Peer.init n piece_count)) a = ∅ := by
  unfold nbrs
  rw [List.getElem?_map]
  cases (List.range pc)[a]? <;> rfl

theorem init_map_graphinv (pc piece_count : Nat) :
    GraphInv ((List.range pc).map (fun n => Peer.init n piece_count)) := by
  refine ⟨?_, ?_, ?_⟩
  · intro a b
    rw [nbrs_init_map, nbrs_init_map]
    simp
  · intro a
    rw [nbrs_init_map]
    exact Finset.not_mem_empty a
  · intro a b h0
    rw [nbrs_init_map] at h0
    exact absurd h0 (Finset.not_mem_empty b)

theorem init_map_allblank (pc piece_count : Nat) :
    AllBlank ((List.range pc).map (fun n => Peer.init n piece_count)) := by
  intro x hx
  obtain ⟨n, -, rfl⟩ := List.mem_map.mp hx
  exact ⟨rfl, init_count_true _ _⟩

theorem buildB_graphinv (pc piece_count : Nat) (edges : List (Nat × Nat))
    (hE : ∀ e ∈ edges, e.1 < pc ∧ e.2 < pc ∧ e.1 ≠ e.2) :
    GraphInv (buildB pc piece_count edges) := by
  unfold buildB
  obtain ⟨⟨hS, hI, hB⟩, hlen⟩ := connect_fold_inv pc edges _ (init_map_length pc piece_count)
    hE (init_map_graphinv pc piece_count)
  refine ⟨?_, ?_, ?_⟩
  · intro a b
    rw [set_seed_nbrs, set_seed_nbrs]
    exact hS a b
  · intro a
    rw [set_seed_nbrs]
    exact hI a
  · intro a b h0
    rw [set_seed_length]
    rw [set_seed_nbrs] at h0
    exact hB a b h0

theorem buildB_count (pc piece_count : Nat) (edges : List (Nat × Nat)) :
    CountOK (buildB pc piece_count edges) := by
  unfold buildB
  exact set_seed_count
    (allblank_count (connect_fold_allblank edges _ (init_map_allblank pc piece_count))) 0

/-! ## The single-peer run -/

theorem buildA_one (pc softL maxL budget : Nat) (orders : Nat → List Nat) :
    buildA 1 pc softL maxL budget orders =
      [{ name := 0, failed_connection_attempts := 0, neighbors := ∅,
         pieces := List.replicate pc true, completed := pc, time := 0,
         uploaded_current_turn := 0, downloaded_current_turn := 0 }] := by
  show set_seed [Peer.init 0 pc] 0 = _
  unfold set_seed
  rw [show ([Peer.init 0 pc])[0]? = some (Peer.init 0 pc) from rfl]
  dsimp only
  simp [Peer.init]

theorem all_done_buildA_one (pc softL maxL budget : Nat) (orders : Nat → List Nat) :
    all_done (buildA 1 pc softL maxL budget orders) = true := by
  rw [buildA_one]
  unfold all_done
  simp

theorem make_plan_buildA_one (L pc softL maxL budget : Nat) (orders : Nat → List Nat) :
    make_plan L (buildA 1 pc softL maxL budget orders) = [] := by
  rw [buildA_one]
  unfold make_plan
  simp [List.range_succ]

theorem cleanup_buildA_one (pc softL maxL budget : Nat) (orders : Nat → List Nat) :
    cleanup_all (buildA 1 pc softL maxL budget orders) =
      buildA 1 pc softL maxL budget orders := by
  rw [buildA_one]
  rfl

theorem nbrs_buildA_one (pc softL maxL budget : Nat) (orders : Nat → List Nat) (a : Nat) :
    nbrs (buildA 1 pc softL maxL budget orders) a = ∅ := by
  rw [buildA_one]
  unfold nbrs
  cases a with
  | zero => rfl
  | succ m => rfl

theorem start_buildA_one (L cap pc softL maxL budget : Nat) (orders : Nat → List Nat)
    (sched : Nat → List Nat → List (Nat × Nat))
    (hs : ∀ r pl, ((sched r pl).map Prod.fst).Perm pl) :
    start L cap sched (buildA 1 pc softL maxL budget orders) =
      (1, buildA 1 pc softL maxL budget orders, true) := by
  have hsched : sched 1 (make_plan L (buildA 1 pc softL maxL budget orders)) = [] := by
    rw [make_plan_buildA_one]
    have h0 : ((sched 1 []).map Prod.fst) = [] :=
      (List.Perm.nil_eq (List.Perm.symm (hs 1 []))).symm
    exact List.map_eq_nil_iff.mp h0
  unfold start
  simp only [start_aux, Nat.zero_add]
  rw [hsched]
  simp only [process_plan, List.foldl_nil]
  rw [cleanup_buildA_one, all_done_buildA_one]
  simp

/-! ## Claim theorems -/

/-- C1: the spec claims the per-peer finish time (`Peer.time`) is set exactly
in the round in which the peer's `completedCount` becomes `pieceCount`.  The
code instead records it when the new `completedCount` equals
`pieceCount - 1`: with two pieces and seed peer 0, peer 1's finish time is
already set to round 1 after its FIRST download (`completed = 1` of 2), and
when the peer actually completes in round 2 the time is left at 1. -/
theorem finish_time_recorded_one_piece_early :
    ((fetch_step 1 1 (buildB 2 2 [(0, 1)]) 1 0)[1]?).map Peer.time = some 1 ∧
    ((fetch_step 1 1 (buildB 2 2 [(0, 1)]) 1 0)[1]?).map Peer.completed = some 1 ∧
    ((fetch_step 1 1 (buildB 2 2 [(0, 1)]) 1 0)[1]?).map
      (fun p => p.pieces.length) = some 2 ∧
    ((fetch_step 1 2 (cleanup_all (fetch_step 1 1 (buildB 2 2 [(0, 1)]) 1 0)) 1 0)[1]?).map
      Peer.completed = some 2 ∧
    ((fetch_step 1 2 (cleanup_all (fetch_step 1 1 (buildB 2 2 [(0, 1)]) 1 0)) 1 0)[1]?).map
      Peer.time = some 1 := by
  decide

/-- C2: at every point during a round's sequential processing, every peer's
`uploaded_current_turn` and `downloaded_current_turn` stay `≤` the transmit
limit: the bound is preserved by each single `fetch_step`, by processing any
work-item sequence, and holds trivially after the round-end cleanup. -/
theorem quota_bound_invariant (L t : Nat) (S : List Peer) (pid k : Nat)
    (items : List (Nat × Nat)) (h : QuotaOK L S) :
    QuotaOK L (fetch_step L t S pid k) ∧
    QuotaOK L (process_plan L t S items) ∧
    QuotaOK L (cleanup_all S) := by
  refine ⟨fetch_step_quota t S pid k h, ?_, cleanup_all_quota L S⟩
  exact process_plan_inv (QuotaOK L)
    (fun T a b hT => fetch_step_quota t T a b hT) items S h

theorem quota_bound_invariant_witness :
    QuotaOK 1 (fetch_step 1 1 (buildB 2 1 [(0, 1)]) 1 0) ∧
    QuotaOK 1 (process_plan 1 1 (buildB 2 1 [(0, 1)]) [(1, 0)]) ∧
    QuotaOK 1 (cleanup_all (buildB 2 1 [(0, 1)])) :=
  quota_bound_invariant 1 1 (buildB 2 1 [(0, 1)]) 1 0 [(1, 0)] (by decide)

/-- C3: `completedCount` equals the population count of the ownership vector
after construction and seeding under both strategies, and the equality is
preserved by every `fetch_step` (which flips exactly one piece from unowned
to owned and increments `completed` by one), by any work-item sequence and
by the round-end cleanup. -/
theorem completed_eq_popcount (pcA pcB piece_count softL maxL budget L t : Nat)
    (orders : Nat → List Nat) (edges : List (Nat × Nat)) (S : List Peer)
    (pid k : Nat) (items : List (Nat × Nat)) (h : CountOK S) :
    CountOK (buildA pcA piece_count softL maxL budget orders) ∧
    CountOK (buildB pcB piece_count edges) ∧
    CountOK (fetch_step L t S pid k) ∧
    CountOK (process_plan L t S items) ∧
    CountOK (cleanup_all S) := by
  refine ⟨buildA_count pcA piece_count softL maxL budget orders,
    buildB_count pcB piece_count edges, fetch_step_count t S pid k h, ?_,
    cleanup_all_count h⟩
  exact process_plan_inv CountOK (fun T a b hT => fetch_step_count t T a b hT) items S h

theorem completed_eq_popcount_witness :
    CountOK (buildA 2 1 1 2 50 (fun n => List.range n)) ∧
    CountOK (buildB 2 1 [(0, 1)]) ∧
    CountOK (fetch_step 1 1 (buildB 2 1 [(0, 1)]) 1 0) ∧
    CountOK (process_plan 1 1 (buildB 2 1 [(0, 1)]) [(1, 0)]) ∧
    CountOK (cleanup_all (buildB 2 1 [(0, 1)])) :=
  completed_eq_popcount 2 2 1 1 2 50 1 1 (fun n => List.range n) [(0, 1)]
    (buildB 2 1 [(0, 1)]) 1 0 [(1, 0)] (by decide)

/-- C4: the neighbor relation of a built graph is symmetric and irreflexive
under both strategies (for Strategy B, for any edge list of a simple graph on
the peer indices, which is what `networkx.random_regular_graph` produces),
and it stays so forever afterwards because `fetch_step`, `fetch_cleanup` and
whole-plan processing never change any neighbor set. -/
theorem neighbor_symm_irrefl (pcA piece_count softL maxL budget : Nat)
    (orders : Nat → List Nat) (pcB : Nat) (edges : List (Nat × Nat))
    (hE : ∀ e ∈ edges, e.1 < pcB ∧ e.2 < pcB ∧ e.1 ≠ e.2)
    (L t : Nat) (S : List Peer) (pid k : Nat) (items : List (Nat × Nat)) (a : Nat) :
    (SymmNbrs (buildA pcA piece_count softL maxL budget orders) ∧
     IrreflNbrs (buildA pcA piece_count softL maxL budget orders)) ∧
    (SymmNbrs (buildB pcB piece_count edges) ∧ IrreflNbrs (buildB pcB piece_count edges)) ∧
    nbrs (fetch_step L t S pid k) a = nbrs S a ∧
    nbrs (cleanup_all S) a = nbrs S a ∧
    nbrs (process_plan L t S items) a = nbrs S a := by
  obtain ⟨hSA, hIA, -⟩ := buildA_graphinv pcA piece_count softL maxL budget orders
  obtain ⟨hSB, hIB, -⟩ := buildB_graphinv pcB piece_count edges hE
  exact ⟨⟨hSA, hIA⟩, ⟨hSB, hIB⟩, fetch_step_nbrs L t S pid k a, cleanup_all_nbrs S a,
    process_plan_nbrs L t S items a⟩

theorem neighbor_symm_irrefl_witness :
    (SymmNbrs (buildA 2 1 1 2 50 (fun n => List.range n)) ∧
     IrreflNbrs (buildA 2 1 1 2 50 (fun n => List.range n))) ∧
    (SymmNbrs (buildB 2 1 [(0, 1)]) ∧ IrreflNbrs (buildB 2 1 [(0, 1)])) ∧
    nbrs (fetch_step 1 1 (buildB 2 1 [(0, 1)]) 1 0) 0 = nbrs (buildB 2 1 [(0, 1)]) 0 ∧
    nbrs (cleanup_all (buildB 2 1 [(0, 1)])) 0 = nbrs (buildB 2 1 [(0, 1)]) 0 ∧
    nbrs (process_plan 1 1 (buildB 2 1 [(0, 1)]) [(1, 0)]) 0 = nbrs (buildB 2 1 [(0, 1)]) 0 :=
  neighbor_symm_irrefl 2 1 1 2 50 (fun n => List.range n) 2 [(0, 1)] (by decide)
    1 1 (buildB 2 1 [(0, 1)]) 1 0 [(1, 0)] 0

/-- C5: under Strategy A, with positive `softLimit ≤ maxLimit`, every peer of
the built graph has at most `maxLimit` neighbors: a candidate is only
connected while its degree is strictly below `maxLimit`, and the new peer
stops connecting once its own degree reaches `softLimit`. -/
theorem strategyA_degree_le_maxLimit (pc piece_count softL maxL budget : Nat)
    (orders : Nat → List Nat) (h0 : 0 < softL) (hsm : softL ≤ maxL) (a : Nat) :
    (nbrs (buildA pc piece_count softL maxL budget orders) a).card ≤ maxL :=
  buildA_degree pc piece_count softL maxL budget orders h0 hsm a

theorem strategyA_degree_le_maxLimit_witness :
    (nbrs (buildA 4 2 2 3 50 (fun n => List.range n)) 1).card ≤ 3 :=
  strategyA_degree_le_maxLimit 4 2 2 3 50 (fun n => List.range n)
    (by decide) (by decide) 1

/-- C6 counterexample: with a single peer under Strategy A the run converges,
but the reported total time is 1, not 0 — the loop counter is incremented at
the top of the loop body before the (empty) round is processed. -/
theorem single_peer_total_time_not_zero :
    (start 10 1000 id_sched (buildA 1 125 5 20 50 (fun _ => []))).1 = 1 ∧
    (1 : Nat) ≠ 0 := by
  decide

/-- C6 (amended): with `peerCount = 1` under Strategy A the build succeeds —
one peer, with an empty neighbor set, which is the seed and already complete —
no work items are ever generated, and the run exits through the all-done test
on its first loop iteration reporting converged with total time 1. -/
theorem single_peer_run_reports_time_one (L cap pc softL maxL budget : Nat)
    (orders : Nat → List Nat) (sched : Nat → List Nat → List (Nat × Nat))
    (hs : ∀ r pl, ((sched r pl).map Prod.fst).Perm pl) :
    (buildA 1 pc softL maxL budget orders).length = 1 ∧
    nbrs (buildA 1 pc softL maxL budget orders) 0 = ∅ ∧
    all_done (buildA 1 pc softL maxL budget orders) = true ∧
    make_plan L (buildA 1 pc softL maxL budget orders) = [] ∧
    start L cap sched (buildA 1 pc softL maxL budget orders) =
      (1, buildA 1 pc softL maxL budget orders, true) := by
  refine ⟨?_, nbrs_buildA_one pc softL maxL budget orders 0,
    all_done_buildA_one pc softL maxL budget orders,
    make_plan_buildA_one L pc softL maxL budget orders,
    start_buildA_one L cap pc softL maxL budget orders sched hs⟩
  rw [buildA_one]
  rfl

theorem single_peer_run_reports_time_one_witness :
    (buildA 1 125 5 20 50 (fun _ => [])).length = 1 ∧
    nbrs (buildA 1 125 5 20 50 (fun _ => [])) 0 = ∅ ∧
    all_done (buildA 1 125 5 20 50 (fun _ => [])) = true ∧
    make_plan 10 (buildA 1 125 5 20 50 (fun _ => [])) = [] ∧
    start 10 1000 id_sched (buildA 1 125 5 20 50 (fun _ => [])) =
      (1, buildA 1 125 5 20 50 (fun _ => []), true) :=
  single_peer_run_reports_time_one 10 1000 125 5 20 50 (fun _ => []) id_sched
    (fun r pl => by
      have h0 : (id_sched r pl).map Prod.fst = pl := by
        unfold id_sched
        rw [List.map_map]
        induction pl with
        | nil => rfl
        | cons x xs ih =>
          simp only [List.map_cons, ih]
          rfl
      rw [h0])

/-- C7: if `A` is a set of peer indices closed under the neighbor relation,
all of whose peers own nothing (in particular a connected component that does
not contain the seed), then after any sequence of work items within a round
every peer of `A` still has `completedCount = 0`; the same holds for the
final state of the whole run, which never converges: it exits through the
round cap, reported not-converged with total time `cap + 1`. -/
theorem unreachable_component_stays_empty (L cap : Nat)
    (sched : Nat → List Nat → List (Nat × Nat)) (S : List Peer) (A : Finset Nat)
    (a0 l : Nat) (ha0 : a0 ∈ A) (hl : 0 < l) (hInv : UnreachableInv A a0 l S) :
    (∀ (t : Nat) (items : List (Nat × Nat)), ∀ a ∈ A,
      blank_at (process_plan L t S items) a = true) ∧
    (∀ a ∈ A, blank_at (start L cap sched S).2.1 a = true) ∧
    (start L cap sched S).2.2 = false ∧
    (start L cap sched S).1 = cap + 1 := by
  have hplan : ∀ (t : Nat) (items : List (Nat × Nat)),
      UnreachableInv A a0 l (process_plan L t S items) := fun t items =>
    process_plan_inv (UnreachableInv A a0 l)
      (fun T pid k hT => fetch_step_unreach hT pid k) items S hInv
  have hrun := start_aux_unreach L cap sched ha0 hl (cap + 1) 0 S hInv (by omega) (by omega)
  obtain ⟨h1, h2, h3⟩ := hrun
  exact ⟨fun t items => (hplan t items).2.1, h3.2.1, h2, h1⟩

theorem unreachable_component_stays_empty_witness :
    (∀ a ∈ ({2, 3} : Finset Nat),
      blank_at (start 1 5 id_sched (buildB 4 1 [(0, 1), (2, 3)])).2.1 a = true) ∧
    (start 1 5 id_sched (buildB 4 1 [(0, 1), (2, 3)])).2.2 = false ∧
    (start 1 5 id_sched (buildB 4 1 [(0, 1), (2, 3)])).1 = 6 :=
  ⟨(unreachable_component_stays_empty 1 5 id_sched (buildB 4 1 [(0, 1), (2, 3)])
      {2, 3} 2 1 (by decide) (by decide) (by decide)).2.1,
   (unreachable_component_stays_empty 1 5 id_sched (buildB 4 1 [(0, 1), (2, 3)])
      {2, 3} 2 1 (by decide) (by decide) (by decide)).2.2.1,
   (unreachable_component_stays_empty 1 5 id_sched (buildB 4 1 [(0, 1), (2, 3)])
      {2, 3} 2 1 (by decide) (by decide) (by decide)).2.2.2⟩

/-- C8: (spec-modelled validation, the generator is external `networkx` code)
whenever `degree * peerCount` is odd, or `degree ≥ peerCount`, or a parameter
is non-positive, Strategy B's build raises a `ConfigurationError` and builds
no graph; in particular `peerCount = 5, degree = 5` is rejected. -/
theorem strategyB_configuration_rejection (d n : Nat)
    (h : (d * n) % 2 = 1 ∨ n ≤ d ∨ d = 0 ∨ n = 0) :
    (∃ e, validate_strategyB d n = .error e) ∧
    (∀ (piece_count : Nat) (edges : List (Nat × Nat)),
      ∃ e, buildB_validated d n piece_count edges = .error e) := by
  have hv : ∃ e, validate_strategyB d n = .error e := by
    unfold validate_strategyB
    by_cases h1 : (d * n) % 2 = 1
    · rw [if_pos h1]
      exact ⟨_, rfl⟩
    rw [if_neg h1]
    by_cases h2 : n ≤ d
    · rw [if_pos h2]
      exact ⟨_, rfl⟩
    rw [if_neg h2]
    have h3 : d = 0 ∨ n = 0 := by tauto
    rw [if_pos h3]
    exact ⟨_, rfl⟩
  obtain ⟨e, he⟩ := hv
  refine ⟨⟨e, he⟩, fun piece_count edges => ⟨e, ?_⟩⟩
  unfold buildB_validated
  rw [he]

theorem strategyB_configuration_rejection_witness :
    ∃ e, validate_strategyB 5 5 = .error e :=
  (strategyB_configuration_rejection 5 5 (by decide)).1

/-- C9: graph connectivity is a frame of the exchange loop: a single
`fetch_step`, the round-end cleanup, processing any work-item sequence, and
the whole driver loop all leave every peer's neighbor set unchanged. -/
theorem round_ops_preserve_neighbors (L t cap : Nat)
    (sched : Nat → List Nat → List (Nat × Nat)) (S : List Peer)
    (pid k a fuel t0 : Nat) (items : List (Nat × Nat)) :
    nbrs (fetch_step L t S pid k) a = nbrs S a ∧
    nbrs (cleanup_all S) a = nbrs S a ∧
    nbrs (process_plan L t S items) a = nbrs S a ∧
    nbrs (start_aux L cap sched fuel t0 S).2.1 a = nbrs S a ∧
    nbrs (start L cap sched S).2.1 a = nbrs S a :=
  ⟨fetch_step_nbrs L t S pid k a, cleanup_all_nbrs S a, process_plan_nbrs L t S items a,
   start_aux_nbrs L cap sched fuel t0 S a, start_aux_nbrs L cap sched (cap + 1) 0 S a⟩

/-- C10: a `fetch_step` call either changes no counter or increments exactly
one peer's downloaded counter and one distinct neighboring peer's uploaded
counter, so the swarm-wide sums of `downloadedThisRound` and
`uploadedThisRound` stay equal through any work-item sequence, and the
round-end cleanup resets both sums to zero together. -/
theorem transfer_sum_balance (L t : Nat) (S : List Peer) (pid k : Nat)
    (items : List (Nat × Nat)) (h : sum_downloaded S = sum_uploaded S) :
    sum_downloaded (fetch_step L t S pid k) = sum_uploaded (fetch_step L t S pid k) ∧
    sum_downloaded (process_plan L t S items) = sum_uploaded (process_plan L t S items) ∧
    sum_downloaded (cleanup_all S) = 0 ∧ sum_uploaded (cleanup_all S) = 0 := by
  refine ⟨fetch_step_sums t S pid k h, ?_, sum_downloaded_cleanup S, sum_uploaded_cleanup S⟩
  exact process_plan_inv (fun T => sum_downloaded T = sum_uploaded T)
    (fun T a b hT => fetch_step_sums t T a b hT) items S h

theorem transfer_sum_balance_witness :
    sum_downloaded (fetch_step 1 1 (buildB 2 1 [(0, 1)]) 1 0) =
      sum_uploaded (fetch_step 1 1 (buildB 2 1 [(0, 1)]) 1 0) ∧
    sum_downloaded (process_plan 1 1 (buildB 2 1 [(0, 1)]) [(1, 0)]) =
      sum_uploaded (process_plan 1 1 (buildB 2 1 [(0, 1)]) [(1, 0)]) ∧
    sum_downloaded (cleanup_all (buildB 2 1 [(0, 1)])) = 0 ∧
    sum_uploaded (cleanup_all (buildB 2 1 [(0, 1)])) = 0 :=
  transfer_sum_balance 1 1 (buildB 2 1 [(0, 1)]) 1 0 [(1, 0)] (by decide)
